import Mathlib

/-!
Verification development for `scripts/integrate_char_table.py` of the
runefix-core repository.  The script's pure logic is embedded shallowly:

* `fetch_archive_name` models `CharTableIntegrator.fetch_archive_name`,
  including the regex scan `re.findall(r'char_table_[\d\-T_:]+_v' + VER +
  r'\.tar\.gz', text)` and the selection `sorted(matches, reverse=True)[0]`.
* `download_archive` models `CharTableIntegrator.download_archive`.
* `extract_archive` models `CharTableIntegrator.extract_archive`, i.e.
  `tarfile.extractall(path=..., filter="data")` with CPython's documented
  `data` filter semantics (leading slashes stripped, escaping destinations
  refused, escaping link targets refused, special files refused).
* `copy_json_data` models `CharTableIntegrator.copy_json_data`.
* `update_consts_rs` models the line-splicing loop of
  `CharTableIntegrator.update_consts_rs` (file I/O is represented by the
  list of lines of `consts.rs`).
* `run` models `CharTableIntegrator.run`'s sequencing of the six steps.

Error values follow the specification's taxonomy (`FetchError`,
`NotFoundError`, `ArchiveError`, `MissingDirectoryError`); the script's
actual Python exception classes are mapped onto these names.
-/

set_option maxRecDepth 100000

/-- Character-level model of `s.startswith(p)` (Lean's byte-based
`String.startsWith` does not reduce in the kernel). -/
def strStarts (s p : String) : Bool := p.data.isPrefixOf s.data

/-- Character-level model of `s.endswith(p)` / fnmatch `*<p>`. -/
def strEnds (s p : String) : Bool := p.data.reverse.isPrefixOf s.data.reverse

/-- Error taxonomy of the pipeline, following the specification's names.
`osError` stands for any other I/O failure (e.g. a missing local file). -/
inductive Err where
  | fetchError
  | notFoundError
  | archiveError
  | missingDirectoryError
  | osError
deriving DecidableEq, Repr

deriving instance DecidableEq for Except

/-! ## Version resolver: `fetch_archive_name` -/

/-- Characters matched by the regex character class `[\d\-T_:]`. -/
def tsChar (c : Char) : Bool :=
  c.isDigit || c == '-' || c == 'T' || c == '_' || c == ':'

/-- The literal head of the archive-name pattern, `char_table_`. -/
def hdrChars : List Char := "char_table_".data

/-- The literal tail of the archive-name pattern for version `v`:
`_v<v>.tar.gz`. -/
def tailChars (v : String) : List Char := ("_v" ++ v ++ ".tar.gz").data

/-- Greedy-with-backtracking choice of the length of the `[\d\-T_:]+` part:
the regex engine first takes the maximal run of class characters and then
backs off until the literal tail matches.  `run` is the maximal class-char
run at the current position and `rest` the text from that position. -/
def pickLen (v : String) (run rest : List Char) : Option Nat :=
  ((List.range run.length).map (fun k => run.length - k)).find?
    (fun l => (tailChars v).isPrefixOf (rest.drop l))

/-- One attempted regex match at the head of `cs`.  Returns the matched
characters and the remaining text after the match. -/
def matchAt (v : String) (cs : List Char) : Option (List Char × List Char) :=
  if hdrChars.isPrefixOf cs then
    let rest := cs.drop hdrChars.length
    let run := rest.takeWhile tsChar
    match pickLen v run rest with
    | some l => some (hdrChars ++ rest.take l ++ tailChars v,
                      rest.drop (l + (tailChars v).length))
    | none => none
  else none

/-- Left-to-right non-overlapping scan of `re.findall`.  The fuel argument
is the length of the text; every step consumes at least one character. -/
def findAllAux (v : String) : Nat → List Char → List String
  | 0, _ => []
  | _ + 1, [] => []
  | fuel + 1, c :: cs =>
    match matchAt v (c :: cs) with
    | some (m, rest) => String.mk m :: findAllAux v fuel rest
    | none => findAllAux v fuel cs

/-- All matches of `char_table_[\d\-T_:]+_v<v>\.tar\.gz` in `text`,
in text order, as produced by `re.findall`. -/
def findAll (v text : String) : List String :=
  findAllAux v text.data.length text.data

/-- Python's lexicographic string comparison (by Unicode code point), on
character lists. -/
def lexLe : List Char → List Char → Bool
  | [], _ => true
  | _ :: _, [] => false
  | a :: as, b :: bs => if a = b then lexLe as bs else decide (a < b)

/-- Python's `s1 <= s2` on strings. -/
def pyStrLe (s₁ s₂ : String) : Bool := lexLe s₁.data s₂.data

/-- The ordering used by `sorted(ms, reverse=True)`. -/
def pyGe (a b : String) : Prop := pyStrLe b a = true

instance : DecidableRel pyGe := fun _ _ => instDecidableEqBool _ _

/-- Model of Python's `sorted(ms, reverse=True)[0]`. -/
def pyMaxSorted (ms : List String) : String :=
  (List.insertionSort pyGe ms).headI

/-- Model of `CharTableIntegrator.fetch_archive_name`: on a non-200 status
it raises (`FetchError` in the spec's taxonomy); with no regex match it
raises (`NotFoundError`); otherwise it selects
`sorted(matches, reverse=True)[0]`. -/
def fetch_archive_name (v : String) (status : Nat) (text : String) :
    Except Err String :=
  if status ≠ 200 then .error .fetchError
  else
    match findAll v text with
    | [] => .error .notFoundError
    | m :: ms => .ok (pyMaxSorted (m :: ms))

/-! ## Tar archive model and the extractor -/

/-- A path stored in a tar member header: an absolute flag (leading `/`)
and the slash-separated components, which may include `""`, `"."` and
`".."`. -/
structure TarPath where
  abs : Bool
  comps : List String
deriving DecidableEq, Repr

/-- The kind of a tar member.  `special` stands for the device/FIFO member
types that the `data` filter refuses. -/
inductive TarKind where
  | reg (content : Nat)
  | dir
  | sym (target : TarPath)
  | special
deriving DecidableEq, Repr

/-- One member of a tar archive. -/
structure TarMember where
  name : TarPath
  kind : TarKind
deriving DecidableEq, Repr

/-- The byte content of a downloaded archive file: either unreadable by
`tarfile.open` or a valid member list. -/
inductive TarBytes where
  | corrupt
  | valid (members : List TarMember)
deriving DecidableEq, Repr

/-- Model of `CharTableIntegrator.download_archive`: `FetchError` on a
non-200 status, otherwise the response body is written to the local
archive path. -/
def download_archive (status : Nat) (body : TarBytes) : Except Err TarBytes :=
  if status ≠ 200 then .error .fetchError else .ok body

/-- Lexical resolution of path components against a stack, as performed by
`os.path.realpath` on the joined destination: `""` and `"."` are dropped,
`".."` pops; popping an empty stack means the path escapes the
destination directory (`none`). -/
def normAux : List String → List String → Option (List String)
  | stack, [] => some stack.reverse
  | stack, c :: cs =>
    if c = "" ∨ c = "." then normAux stack cs
    else if c = ".." then
      match stack with
      | [] => none
      | _ :: s' => normAux s' cs
    else normAux (c :: stack) cs

/-- Resolve a relative component list; `none` means it escapes above the
destination directory. -/
def normPath (cs : List String) : Option (List String) := normAux [] cs

/-- CPython's `data` extraction filter on one member (POSIX semantics):
leading slashes were already stripped from `name.comps` (the `abs` flag is
ignored for the destination), a destination escaping the target directory
is refused, symlinks with absolute targets or targets escaping the target
directory are refused, and special members are refused. -/
def memberOk (m : TarMember) : Bool :=
  match normPath m.name.comps with
  | none => false
  | some _ =>
    match m.kind with
    | .sym t => !t.abs && (normPath (m.name.comps.dropLast ++ t.comps)).isSome
    | .special => false
    | _ => true

/-- A member falling in one of the claim's refused categories, except the
absolute-path one: an escaping parent-traversal destination, an escaping
or absolute symlink target, or a special file type. -/
def isUnsafeMember (m : TarMember) : Bool :=
  (normPath m.name.comps).isNone ||
  (match m.kind with
   | .sym t => t.abs || (normPath (m.name.comps.dropLast ++ t.comps)).isNone
   | .special => true
   | _ => false)

/-- The scratch directory tree produced by extraction.  File paths are the
raw (slash-stripped) member component lists. -/
structure FileTree where
  files : List (List String × Nat)
  dirs : List (List String)
  syms : List (List String × TarPath)
deriving DecidableEq, Repr

/-- The freshly created empty scratch directory. -/
def emptyTree : FileTree := ⟨[], [], []⟩

/-- Overwrite-or-add a file at a path. -/
def putFile (fs : List (List String × Nat)) (p : List String) (c : Nat) :
    List (List String × Nat) :=
  fs.filter (fun q => !(q.1 == p)) ++ [(p, c)]

/-- Effect of extracting one accepted member into the tree. -/
def applyMember (t : FileTree) (m : TarMember) : FileTree :=
  match m.kind with
  | .reg c => { t with files := putFile t.files m.name.comps c }
  | .dir => { t with dirs := m.name.comps :: t.dirs }
  | .sym tgt => { t with syms := (m.name.comps, tgt) :: t.syms }
  | .special => t

/-- Sequential extraction with the `data` filter: members are extracted in
order and the first refused member aborts extraction with the spec's
`ArchiveError`, leaving the members before it extracted. -/
def extractLoop : List TarMember → FileTree → Option Err × FileTree
  | [], t => (none, t)
  | m :: ms, t =>
    if memberOk m then extractLoop ms (applyMember t m)
    else (some .archiveError, t)

/-- Model of `CharTableIntegrator.extract_archive`: the scratch directory
is reset to empty, then the archive file is opened (missing file: OS
error; unreadable bytes: `ArchiveError`) and extracted with the `data`
filter.  Returns the error, if any, and the resulting scratch tree. -/
def extract_archive (archiveFile : Option TarBytes) : Option Err × FileTree :=
  match archiveFile with
  | none => (some .osError, emptyTree)
  | some .corrupt => (some .archiveError, emptyTree)
  | some (.valid ms) => extractLoop ms emptyTree

/-! ## Asset filter copier: `copy_json_data` -/

/-- The snapshot subtree path `char_table/current` inside the scratch
directory. -/
def curPath : List String := ["char_table", "current"]

/-- The final component (file name) of a path. -/
def fileName (p : List String) : String := p.getLastD ""

/-- Whether `extract_dir / char_table / current` exists on disk: either a
directory at or below that path was created, or some file lies at or
below it. -/
def currentExists (t : FileTree) : Bool :=
  t.dirs.any (fun d => curPath.isPrefixOf d) ||
  t.files.any (fun f => curPath.isPrefixOf f.1)

/-- Model of `current_dir.rglob("*.json")`: every file strictly below the
`current` subtree whose name ends in `.json` (pathlib's glob does not
special-case dotfiles). -/
def rglobJson (t : FileTree) : List (List String × Nat) :=
  t.files.filter (fun f =>
    curPath.isPrefixOf f.1 && decide (curPath.length < f.1.length) &&
    strEnds (fileName f.1) ".json")

/-- Copy a file into the flat assets directory, overwriting an existing
file of the same name. -/
def assetPut (a : List (String × Nat)) (k : String) (v : Nat) :
    List (String × Nat) :=
  a.filter (fun p => !(p.1 == k)) ++ [(k, v)]

/-- The `for file in current_dir.rglob("*.json")` loop: platform-artifact
names (resource-fork `._` names, `.DS_Store`) are skipped with `continue`,
every other candidate is copied and counted. -/
def copyLoop : List (List String × Nat) → List (String × Nat) → Nat →
    List (String × Nat) × Nat
  | [], a, c => (a, c)
  | f :: fs, a, c =>
    if strStarts (fileName f.1) "._" || fileName f.1 == ".DS_Store" then
      copyLoop fs a c
    else copyLoop fs (assetPut a (fileName f.1) f.2) (c + 1)

/-- Model of `CharTableIntegrator.copy_json_data`: fails with the spec's
`MissingDirectoryError` when the `current` subtree is absent, otherwise
copies the filtered candidates into the assets directory and returns the
new assets directory and the count of copied files. -/
def copy_json_data (t : FileTree) (assets : List (String × Nat)) :
    Except Err (List (String × Nat) × Nat) :=
  if currentExists t then .ok (copyLoop (rglobJson t) assets 0)
  else .error .missingDirectoryError

/-- Specification-side characterization of the copied files: exactly the
files under `current` whose name ends in `.json` and neither starts with
`._` nor equals `.DS_Store` (claim C4's selection predicate). -/
def specSelected (t : FileTree) : List (List String × Nat) :=
  t.files.filter (fun f =>
    curPath.isPrefixOf f.1 && decide (curPath.length < f.1.length) &&
    strEnds (fileName f.1) ".json" &&
    !(strStarts (fileName f.1) "._") && !(fileName f.1 == ".DS_Store"))

/-! ## Constant patcher: `update_consts_rs` -/

/-- The fixed marker token identifying the version declaration. -/
def markerStr : String := "pub const UNICODE_VERSION: (u8, u8, u8)"

/-- Whether `pat` occurs as a contiguous run inside the second list. -/
def listInfix (pat : List Char) : List Char → Bool
  | [] => pat.isEmpty
  | c :: cs => pat.isPrefixOf (c :: cs) || listInfix pat cs

/-- Python's `markerStr in line` substring test. -/
def containsMarker (l : String) : Bool := listInfix markerStr.data l.data

/-- The generated banner comment line. -/
def bannerLine : String := "/// Unicode Version used by this build (auto-synced)."

/-- The generated auto-updated date comment line. -/
def dateLine (today : String) : String := "/// auto-updated: " ++ today

/-- Python's `s.split(".")` on the character list of `s` (accumulator is
the reversed current chunk). -/
def splitDotAux : List Char → List Char → List (List Char)
  | cur, [] => [cur.reverse]
  | cur, c :: cs =>
    if c = '.' then cur.reverse :: splitDotAux [] cs
    else splitDotAux (c :: cur) cs

/-- Python's `", ".join(chunks)`. -/
def joinComma : List (List Char) → List Char
  | [] => []
  | [x] => x
  | x :: y :: xs => x ++ ", ".data ++ joinComma (y :: xs)

/-- The characters of `", ".join(version.split("."))`. -/
def verTupleChars (version : String) : List Char :=
  joinComma (splitDotAux [] version.data)

/-- The generated declaration line: the version's dot-separated components
joined verbatim by ", " inside parentheses (no numeric validation). -/
def declLine (version : String) : String :=
  String.mk ("pub const UNICODE_VERSION: (u8, u8, u8) = (".data ++
    verTupleChars version ++ ");".data)

/-- The generated three-line replacement block. -/
def autoBlock (today version : String) : List String :=
  [bannerLine, dateLine today, declLine version]

/-- The `for i in range(len(lines))` loop of `update_consts_rs`: a line
containing the marker is not copied; instead `new_lines[-2:] = blk`
replaces the up-to-two last accumulated lines with the block (on a list
of length ≤ 1, Python's slice assignment replaces the whole list).  Every
other line is appended.  Returns the accumulated lines and the `replaced`
flag. -/
def updateLoop (blk : List String) : List String → List String → Bool →
    List String × Bool
  | [], acc, rep => (acc, rep)
  | l :: ls, acc, rep =>
    if containsMarker l then
      updateLoop blk ls (acc.take (acc.length - 2) ++ blk) true
    else updateLoop blk ls (acc ++ [l]) rep

/-- Model of `CharTableIntegrator.update_consts_rs` on the lines of
`consts.rs` (reading, splitting and re-joining the file text is I/O
plumbing): run the replacement loop; if no marker line was found, append
an empty line and the three-line block at the end of the file. -/
def update_consts_rs (today version : String) (lines : List String) :
    List String :=
  let blk := autoBlock today version
  let r := updateLoop blk lines [] false
  if r.2 then r.1 else r.1 ++ [""] ++ blk

/-! ## Orchestrator: `run` -/

/-- The observable state the pipeline acts on: the two remote responses
(listing page and raw download) and the local machine (integrator field
`archive_name`, the downloaded archive file, the scratch directory, the
assets directory, and the lines of `consts.rs`). -/
structure World where
  listingStatus : Nat
  listingText : String
  dlStatus : Nat
  dlBody : TarBytes
  archiveName : String
  archiveFile : Option TarBytes
  scratch : Option FileTree
  assets : List (String × Nat)
  constsLines : List String
deriving DecidableEq, Repr

/-- The six pipeline steps, in the order `run` invokes them. -/
inductive Step where
  | fetch
  | download
  | extract
  | copy
  | update
  | cleanup
deriving DecidableEq, Repr

/-- Effect of one pipeline step on the world; `some e` models the step
raising.  `cleanup` models `clean_up`: it deletes the archive file and
the scratch directory and never raises. -/
def runStep (version today : String) : Step → World → Option Err × World
  | .fetch, w =>
    match fetch_archive_name version w.listingStatus w.listingText with
    | .error e => (some e, w)
    | .ok n => (none, { w with archiveName := n })
  | .download, w =>
    match download_archive w.dlStatus w.dlBody with
    | .error e => (some e, w)
    | .ok b => (none, { w with archiveFile := some b })
  | .extract, w =>
    let r := extract_archive w.archiveFile
    (r.1, { w with scratch := some r.2 })
  | .copy, w =>
    match copy_json_data (w.scratch.getD emptyTree) w.assets with
    | .error e => (some e, w)
    | .ok p => (none, { w with assets := p.1 })
  | .update, w =>
    (none, { w with constsLines := update_consts_rs today version w.constsLines })
  | .cleanup, w =>
    (none, { w with archiveFile := none, scratch := none })

/-- The fixed step order of `CharTableIntegrator.run`. -/
def pipelineSteps : List Step :=
  [.fetch, .download, .extract, .copy, .update, .cleanup]

/-- Sequential execution: each step runs only if all previous steps
succeeded (a raised exception propagates out of `run` immediately).
Returns the first error (if any), the final world, and the list of steps
that were actually invoked. -/
def runFrom (version today : String) : List Step → World →
    Option Err × World × List Step
  | [], w => (none, w, [])
  | s :: ss, w =>
    match runStep version today s w with
    | (some e, w') => (some e, w', [s])
    | (none, w') =>
      let r := runFrom version today ss w'
      (r.1, r.2.1, s :: r.2.2)

/-- Model of `CharTableIntegrator.run`. -/
def run (version today : String) (w : World) : Option Err × World × List Step :=
  runFrom version today pipelineSteps w


/-! ## Proof instrumentation for the patcher loop -/

/-- Tag the generated block lines with `none` (no source index). -/
def blkT (blk : List String) : List (Option Nat × String) :=
  blk.map (fun s => ((none : Option Nat), s))

/-- One step of the replacement loop on index-tagged lines: a source line
is tagged with its index when appended; the splice behaves exactly as
`new_lines[-2:] = blk`. -/
def stepT (blk : List String) (i : Nat) (l : String)
    (acc : List (Option Nat × String)) : List (Option Nat × String) :=
  if containsMarker l then acc.take (acc.length - 2) ++ blkT blk
  else acc ++ [(some i, l)]

/-- The replacement loop on index-tagged lines, starting at index `i`. -/
def loopT (blk : List String) :
    Nat → List String → List (Option Nat × String) → List (Option Nat × String)
  | _, [], acc => acc
  | i, l :: ls, acc => loopT blk (i + 1) ls (stepT blk i l acc)

/-- Whether source line `j` lies in the replacement window of some marker
line: the marker at index `m` overwrites lines `m-2 .. m` (the marker
line and the up-to-two lines immediately before it). -/
def inWin (lines : List String) (j : Nat) : Bool :=
  (List.range lines.length).any (fun m =>
    containsMarker (lines.getD m "") && decide (j ≤ m) && decide (m ≤ j + 2))

/-- The tagged non-window source lines with indices `< k`, in order. -/
def goodUpto (lines : List String) (k : Nat) : List (Option Nat × String) :=
  ((List.range k).filter
      (fun j => decide (j < lines.length) && !inWin lines j)).map
    (fun j => (some j, lines.getD j ""))

/-! # Helper lemmas -/

theorem lexLe_refl : ∀ as : List Char, lexLe as as = true
  | [] => rfl
  | a :: as => by simp [lexLe, lexLe_refl as]

theorem lexLe_total : ∀ as bs : List Char, lexLe as bs = true ∨ lexLe bs as = true
  | [], _ => Or.inl rfl
  | _ :: _, [] => Or.inr rfl
  | a :: as, b :: bs => by
    by_cases h : a = b
    · subst h
      simpa [lexLe] using lexLe_total as bs
    · rcases lt_or_gt_of_ne h with hlt | hgt
      · exact Or.inl (by simp [lexLe, h, hlt])
      · refine Or.inr ?_
        simp [lexLe, Ne.symm h]
        exact hgt

theorem lexLe_trans : ∀ as bs cs : List Char,
    lexLe as bs = true → lexLe bs cs = true → lexLe as cs = true
  | [], _, _ => fun _ _ => rfl
  | _ :: _, [], _ => fun h _ => by simp [lexLe] at h
  | _ :: _, _ :: _, [] => fun _ h => by simp [lexLe] at h
  | a :: as, b :: bs, c :: cs => fun h1 h2 => by
    by_cases hab : a = b <;> by_cases hbc : b = c
    · subst hab; subst hbc
      simp only [lexLe, if_pos rfl] at h1 h2 ⊢
      exact lexLe_trans as bs cs h1 h2
    · subst hab
      simp only [lexLe, if_pos rfl, if_neg hbc] at h2 ⊢
      exact h2
    · subst hbc
      simp only [lexLe, if_pos rfl, if_neg hab] at h1 ⊢
      exact h1
    · simp only [lexLe, if_neg hab, if_neg hbc, decide_eq_true_eq] at h1 h2
      have hac : a < c := lt_trans h1 h2
      have hne : a ≠ c := ne_of_lt hac
      simp [lexLe, if_neg hne, hac]

instance : IsTotal String pyGe :=
  ⟨fun a b => (lexLe_total b.data a.data).imp (fun h => h) (fun h => h)⟩

instance : IsTrans String pyGe :=
  ⟨fun _ _ _ h1 h2 => lexLe_trans _ _ _ h2 h1⟩

/-- `sorted(ms, reverse=True)[0]` on a nonempty list is a member and a
lexicographic upper bound of the list. -/
theorem pyMaxSorted_spec (m : String) (ms : List String) :
    pyMaxSorted (m :: ms) ∈ m :: ms ∧
    ∀ x ∈ m :: ms, pyStrLe x (pyMaxSorted (m :: ms)) = true := by
  have hperm := List.perm_insertionSort pyGe (m :: ms)
  have hsort := List.sorted_insertionSort pyGe (m :: ms)
  cases hs : List.insertionSort pyGe (m :: ms) with
  | nil =>
    exfalso
    have := hperm.length_eq
    rw [hs] at this
    simp at this
  | cons a s =>
    rw [hs] at hperm hsort
    have hmax : pyMaxSorted (m :: ms) = a := by
      unfold pyMaxSorted
      rw [hs, List.headI]
    rw [hmax]
    constructor
    · exact hperm.subset (List.mem_cons_self a s)
    · intro x hx
      rcases List.mem_cons.mp (hperm.mem_iff.mpr hx) with rfl | hx'
      · exact lexLe_refl _
      · exact List.rel_of_sorted_cons hsort x hx'

/-! # Claim theorems -/

/-- C6: both network operations fail with `FetchError` exactly when the
HTTP response has a non-success (non-200) status; on success status the
download succeeds and neither operation raises `FetchError`. -/
theorem networkErrors_fetchError_iff (v text : String) (st : Nat) (b : TarBytes) :
    (fetch_archive_name v st text = .error .fetchError ↔ st ≠ 200) ∧
    (download_archive st b = .error .fetchError ↔ st ≠ 200) ∧
    (st = 200 → download_archive st b = .ok b) := by
  by_cases h : st = 200
  · subst h
    refine ⟨⟨fun hc => ?_, fun hc => absurd rfl hc⟩,
            ⟨fun hc => ?_, fun hc => absurd rfl hc⟩, fun _ => by simp [download_archive]⟩
    · rw [fetch_archive_name] at hc
      simp only [ne_eq, not_true_eq_false, if_false] at hc
      cases hm : findAll v text with
      | nil => rw [hm] at hc; exact absurd hc (by simp)
      | cons a s => rw [hm] at hc; exact absurd hc (by simp)
    · rw [download_archive] at hc
      simp at hc
  · refine ⟨⟨fun _ => h, fun _ => ?_⟩, ⟨fun _ => h, fun _ => ?_⟩, fun hc => absurd hc h⟩
    · simp [fetch_archive_name, h]
    · simp [download_archive, h]

/-- C6 witness: the theorem instantiated at a failed (404) response. -/
theorem networkErrors_fetchError_iff_witness :
    (fetch_archive_name "15.1.0" 404 "" = .error .fetchError ↔ 404 ≠ 200) ∧
    (download_archive 404 .corrupt = .error .fetchError ↔ 404 ≠ 200) ∧
    (404 = 200 → download_archive 404 .corrupt = .ok .corrupt) :=
  networkErrors_fetchError_iff "15.1.0" "" 404 .corrupt

/-- C8: on a success-status listing in which zero filenames match the
archive-naming pattern for the requested version (the `re.findall` result
is empty), `fetch_archive_name` fails with `NotFoundError`. -/
theorem fetch_noMatch_notFound (v text : String) (h : findAll v text = []) :
    fetch_archive_name v 200 text = .error .notFoundError := by
  simp [fetch_archive_name, h]

/-- C8 witness: a concrete listing with no matching archive name. -/
theorem fetch_noMatch_notFound_witness :
    findAll "15.1.0" "no archives here" = [] ∧
    fetch_archive_name "15.1.0" 200 "no archives here" = .error .notFoundError :=
  ⟨by decide, fetch_noMatch_notFound _ _ (by decide)⟩

theorem isPrefixOf_append_right (l r : List Char) : l.isPrefixOf (l ++ r) = true :=
  List.isPrefixOf_iff_prefix.mpr (List.prefix_append l r)

theorem length_le_length_takeWhile (p : Char → Bool) :
    ∀ (t r : List Char), (∀ c ∈ t, p c = true) →
      t.length ≤ ((t ++ r).takeWhile p).length
  | [], _, _ => Nat.zero_le _
  | c :: t, r, h => by
    have hc : p c = true := h c (List.mem_cons_self _ _)
    simp only [List.cons_append, List.takeWhile_cons, hc, if_true, List.length_cons]
    exact Nat.succ_le_succ
      (length_le_length_takeWhile p t r (fun x hx => h x (List.mem_cons_of_mem _ hx)))

/-- At the start of an occurrence of the archive-name pattern, the regex
engine finds a match. -/
theorem matchAt_isSome_of_occurrence (v : String) (t b : List Char)
    (ht : t ≠ []) (htc : ∀ c ∈ t, tsChar c = true) :
    (matchAt v (hdrChars ++ (t ++ (tailChars v ++ b)))).isSome = true := by
  unfold matchAt
  have hp := isPrefixOf_append_right hdrChars (t ++ (tailChars v ++ b))
  rw [if_pos hp]
  have hdrop : (hdrChars ++ (t ++ (tailChars v ++ b))).drop hdrChars.length =
      t ++ (tailChars v ++ b) := List.drop_left _ _
  rw [hdrop]
  have htlen : 0 < t.length := List.length_pos.mpr ht
  have hrun : t.length ≤ ((t ++ (tailChars v ++ b)).takeWhile tsChar).length :=
    length_le_length_takeWhile tsChar t _ htc
  have hpick : (pickLen v ((t ++ (tailChars v ++ b)).takeWhile tsChar)
      (t ++ (tailChars v ++ b))).isSome = true := by
    rw [pickLen, List.find?_isSome]
    refine ⟨t.length, ?_, ?_⟩
    · rw [List.mem_map]
      refine ⟨((t ++ (tailChars v ++ b)).takeWhile tsChar).length - t.length,
        List.mem_range.mpr ?_, Nat.sub_sub_self hrun⟩
      omega
    · rw [List.drop_left]
      exact isPrefixOf_append_right _ _
  obtain ⟨l, hl⟩ := Option.isSome_iff_exists.mp hpick
  simp [hl]

/-- If the text contains an occurrence of the archive-name pattern, the
`re.findall` scan returns at least one match (given enough fuel). -/
theorem findAllAux_ne_nil (v : String) :
    ∀ (a : List Char) (fuel : Nat) (t b : List Char), t ≠ [] →
      (∀ c ∈ t, tsChar c = true) →
      (a ++ (hdrChars ++ (t ++ (tailChars v ++ b)))).length ≤ fuel →
      findAllAux v fuel (a ++ (hdrChars ++ (t ++ (tailChars v ++ b)))) ≠ []
  | [], fuel, t, b, ht, htc, hfuel => by
    rw [List.nil_append] at hfuel ⊢
    cases fuel with
    | zero => simp [hdrChars] at hfuel
    | succ f =>
      have hsome := matchAt_isSome_of_occurrence v t b ht htc
      obtain ⟨⟨m, rest⟩, hm⟩ := Option.isSome_iff_exists.mp hsome
      rw [show hdrChars ++ (t ++ (tailChars v ++ b)) =
        'c' :: ("har_table_".data ++ (t ++ (tailChars v ++ b))) from rfl] at hm ⊢
      rw [findAllAux, hm]
      simp
  | x :: a, fuel, t, b, ht, htc, hfuel => by
    cases fuel with
    | zero => simp at hfuel
    | succ f =>
      rw [List.cons_append, findAllAux]
      cases hm : matchAt v (x :: (a ++ (hdrChars ++ (t ++ (tailChars v ++ b))))) with
      | some p =>
        cases p
        simp
      | none =>
        have hlen : (a ++ (hdrChars ++ (t ++ (tailChars v ++ b)))).length ≤ f := by
          rw [List.cons_append, List.length_cons] at hfuel
          omega
        exact findAllAux_ne_nil v a f t b ht htc hlen

/-- If the listing text contains an archive filename matching the pattern
for version `v`, the scan result is nonempty. -/
theorem findAll_ne_nil (v text : String) (a t b : List Char)
    (htext : text.data = a ++ (hdrChars ++ (t ++ (tailChars v ++ b))))
    (ht : t ≠ []) (htc : ∀ c ∈ t, tsChar c = true) :
    findAll v text ≠ [] := by
  unfold findAll
  rw [htext]
  exact findAllAux_ne_nil v a _ t b ht htc le_rfl

/-- C2: for every listing document whose text contains at least one
archive filename matching the naming pattern for the requested version
(`char_table_<ts>_v<v>.tar.gz` with a nonempty timestamp of pattern
characters), `fetch_archive_name` succeeds and selects a matched filename
that is lexicographically maximal among all matches. -/
theorem fetch_selects_max (v text : String)
    (h : ∃ a t b, text.data = a ++ (hdrChars ++ (t ++ (tailChars v ++ b))) ∧
      t ≠ [] ∧ ∀ c ∈ t, tsChar c = true) :
    ∃ m, fetch_archive_name v 200 text = .ok m ∧ m ∈ findAll v text ∧
      ∀ x ∈ findAll v text, pyStrLe x m = true := by
  obtain ⟨a, t, b, htext, ht, htc⟩ := h
  have hne := findAll_ne_nil v text a t b htext ht htc
  cases hm : findAll v text with
  | nil => exact absurd hm hne
  | cons m0 ms =>
    refine ⟨pyMaxSorted (m0 :: ms), ?_, ?_, ?_⟩
    · simp [fetch_archive_name, hm]
    · exact (pyMaxSorted_spec m0 ms).1
    · intro x hx
      exact (pyMaxSorted_spec m0 ms).2 x hx

/-- C2 witness: a listing with three timestamps T1 < T2 < T3 in the same
zero-padded format; the name containing T3 is returned. -/
theorem fetch_selects_max_witness :
    (∃ a t b,
      ("<li>char_table_2025-01-01T00:00:00_v15.1.0.tar.gz</li><li>char_table_2025-03-03T00:00:00_v15.1.0.tar.gz</li><li>char_table_2025-02-02T00:00:00_v15.1.0.tar.gz</li>" : String).data =
        a ++ (hdrChars ++ (t ++ (tailChars "15.1.0" ++ b))) ∧
      t ≠ [] ∧ ∀ c ∈ t, tsChar c = true) ∧
    (∃ m, fetch_archive_name "15.1.0" 200
        "<li>char_table_2025-01-01T00:00:00_v15.1.0.tar.gz</li><li>char_table_2025-03-03T00:00:00_v15.1.0.tar.gz</li><li>char_table_2025-02-02T00:00:00_v15.1.0.tar.gz</li>" = .ok m ∧
      m ∈ findAll "15.1.0"
        "<li>char_table_2025-01-01T00:00:00_v15.1.0.tar.gz</li><li>char_table_2025-03-03T00:00:00_v15.1.0.tar.gz</li><li>char_table_2025-02-02T00:00:00_v15.1.0.tar.gz</li>" ∧
      ∀ x ∈ findAll "15.1.0"
        "<li>char_table_2025-01-01T00:00:00_v15.1.0.tar.gz</li><li>char_table_2025-03-03T00:00:00_v15.1.0.tar.gz</li><li>char_table_2025-02-02T00:00:00_v15.1.0.tar.gz</li>",
        pyStrLe x m = true) ∧
    fetch_archive_name "15.1.0" 200
        "<li>char_table_2025-01-01T00:00:00_v15.1.0.tar.gz</li><li>char_table_2025-03-03T00:00:00_v15.1.0.tar.gz</li><li>char_table_2025-02-02T00:00:00_v15.1.0.tar.gz</li>" =
      .ok "char_table_2025-03-03T00:00:00_v15.1.0.tar.gz" := by
  refine ⟨⟨"<li>".data, "2025-01-01T00:00:00".data,
      "</li><li>char_table_2025-03-03T00:00:00_v15.1.0.tar.gz</li><li>char_table_2025-02-02T00:00:00_v15.1.0.tar.gz</li>".data,
      by decide, by decide, by decide⟩, ?_, by decide⟩
  exact fetch_selects_max "15.1.0" _
    ⟨"<li>".data, "2025-01-01T00:00:00".data,
      "</li><li>char_table_2025-03-03T00:00:00_v15.1.0.tar.gz</li><li>char_table_2025-02-02T00:00:00_v15.1.0.tar.gz</li>".data,
      by decide, by decide, by decide⟩

theorem normPath_isSome_of_memberOk (m : TarMember) (h : memberOk m = true) :
    (normPath m.name.comps).isSome = true := by
  unfold memberOk at h
  cases hn : normPath m.name.comps with
  | none => rw [hn] at h; exact absurd h (by simp)
  | some r => simp [hn]

theorem memberOk_eq_false_of_unsafeMember (m : TarMember)
    (h : isUnsafeMember m = true) : memberOk m = false := by
  unfold isUnsafeMember at h
  unfold memberOk
  cases hn : normPath m.name.comps with
  | none => rfl
  | some r =>
    rw [hn] at h
    simp only [Option.isNone_some, Bool.false_or] at h
    cases hk : m.kind with
    | reg c => rw [hk] at h; simp at h
    | dir => rw [hk] at h; simp at h
    | special => rfl
    | sym t =>
      rw [hk] at h
      rcases Bool.or_eq_true_iff.mp h with habs | hnone
      · simp [habs]
      · simp [Option.isNone_iff_eq_none.mp hnone]

theorem extractLoop_err_of_unsafeMember : ∀ (ms : List TarMember) (t : FileTree),
    (∃ m ∈ ms, isUnsafeMember m = true) →
    (extractLoop ms t).1 = some .archiveError
  | [], _, h => by simp at h
  | m :: ms, t, h => by
    rw [extractLoop]
    by_cases hok : memberOk m = true
    · rw [if_pos hok]
      apply extractLoop_err_of_unsafeMember ms
      rcases h with ⟨x, hx, hux⟩
      rcases List.mem_cons.mp hx with rfl | hx'
      · rw [memberOk_eq_false_of_unsafeMember x hux] at hok
        exact absurd hok (by simp)
      · exact ⟨x, hx', hux⟩
    · rw [if_neg hok]

theorem extractLoop_safe : ∀ (ms : List TarMember) (t : FileTree),
    (∀ p c, (p, c) ∈ t.files → (normPath p).isSome = true) →
    ∀ p c, (p, c) ∈ (extractLoop ms t).2.files → (normPath p).isSome = true
  | [], _, ht => ht
  | m :: ms, t, ht => by
    rw [extractLoop]
    by_cases hok : memberOk m = true
    · rw [if_pos hok]
      apply extractLoop_safe ms
      intro p c hp
      cases hk : m.kind with
      | reg cc =>
        unfold applyMember at hp
        rw [hk] at hp
        simp only [putFile] at hp
        rcases List.mem_append.mp hp with hin | hnew
        · exact ht p c (List.mem_filter.mp hin).1
        · have : p = m.name.comps ∧ c = cc := by
            simpa using List.mem_singleton.mp hnew
          rw [this.1]
          exact normPath_isSome_of_memberOk m hok
      | dir =>
        unfold applyMember at hp
        rw [hk] at hp
        exact ht p c hp
      | sym tgt =>
        unfold applyMember at hp
        rw [hk] at hp
        exact ht p c hp
      | special =>
        unfold applyMember at hp
        rw [hk] at hp
        exact ht p c hp
    · rw [if_neg hok]
      exact ht

/-- C1 counterexample: an archive whose only member has an absolute path
(`/evil`).  Contrary to the claim, `extract_archive` does not fail with
`ArchiveError`: CPython's `data` filter strips the leading slash and the
member is extracted (inside the scratch directory) with no error. -/
theorem extract_absolute_not_refused :
    (⟨⟨true, ["evil"]⟩, .reg 7⟩ : TarMember).name.abs = true ∧
    (extract_archive (some (.valid [⟨⟨true, ["evil"]⟩, .reg 7⟩]))).1 = none ∧
    (extract_archive (some (.valid [⟨⟨true, ["evil"]⟩, .reg 7⟩]))).2.files =
      [(["evil"], 7)] :=
  ⟨rfl, by decide, by decide⟩

/-- C1 (amended): for every archive containing a member that would escape
the scratch directory through a parent-directory traversal path, a
symlink escape (absolute or traversing link target), or a special file
type, `extract_archive` refuses that member and fails with
`ArchiveError`; absolute member paths are instead sanitized by stripping
their leading slashes and extracted inside the scratch directory.  In all
cases no file is written outside the scratch directory: every extracted
file path resolves to a location inside it. -/
theorem extract_refuses_unsafeMembers (ms : List TarMember)
    (h : ∃ m ∈ ms, isUnsafeMember m = true) :
    (extract_archive (some (.valid ms))).1 = some .archiveError ∧
    ∀ (f : Option TarBytes) (p : List String) (c : Nat),
      (p, c) ∈ (extract_archive f).2.files → (normPath p).isSome = true := by
  constructor
  · exact extractLoop_err_of_unsafeMember ms emptyTree h
  · intro f p c hp
    match f with
    | none => simp [extract_archive, emptyTree] at hp
    | some .corrupt => simp [extract_archive, emptyTree] at hp
    | some (.valid ms') =>
      exact extractLoop_safe ms' emptyTree (by intro p c hp; simp [emptyTree] at hp) p c hp

/-- C1 witness: a concrete archive with a good member followed by a
parent-traversal member; extraction fails with `ArchiveError`. -/
theorem extract_refuses_unsafeMembers_witness :
    (∃ m ∈ [(⟨⟨false, ["char_table", "current", "a.json"]⟩, .reg 2⟩ : TarMember),
            ⟨⟨false, ["a", "..", "..", "x"]⟩, .reg 1⟩], isUnsafeMember m = true) ∧
    ((extract_archive (some (.valid
        [⟨⟨false, ["char_table", "current", "a.json"]⟩, .reg 2⟩,
         ⟨⟨false, ["a", "..", "..", "x"]⟩, .reg 1⟩]))).1 = some .archiveError ∧
     ∀ (f : Option TarBytes) (p : List String) (c : Nat),
       (p, c) ∈ (extract_archive f).2.files → (normPath p).isSome = true) :=
  ⟨by decide, extract_refuses_unsafeMembers _ (by decide)⟩

theorem copyLoop_spec : ∀ (fs : List (List String × Nat)) (a : List (String × Nat)) (c : Nat),
    copyLoop fs a c =
      ((fs.filter (fun f =>
          !(strStarts (fileName f.1) "._" || fileName f.1 == ".DS_Store"))).foldl
        (fun acc f => assetPut acc (fileName f.1) f.2) a,
       c + (fs.filter (fun f =>
          !(strStarts (fileName f.1) "._" || fileName f.1 == ".DS_Store"))).length)
  | [], a, c => by simp [copyLoop]
  | f :: fs, a, c => by
    rw [copyLoop]
    by_cases hskip : (strStarts (fileName f.1) "._" || fileName f.1 == ".DS_Store") = true
    · rw [if_pos hskip, copyLoop_spec fs a c, List.filter_cons,
        if_neg (by simp [hskip])]
    · rw [if_neg hskip, copyLoop_spec fs, List.filter_cons,
        if_pos (by simp only [Bool.not_eq_true] at hskip; simp [hskip])]
      simp only [List.foldl_cons, List.length_cons, Prod.mk.injEq]
      exact ⟨trivial, by omega⟩

theorem filter_keep_rglob (t : FileTree) :
    (rglobJson t).filter (fun f =>
      !(strStarts (fileName f.1) "._" || fileName f.1 == ".DS_Store")) = specSelected t := by
  unfold rglobJson specSelected
  rw [List.filter_filter]
  apply List.filter_congr
  intro x _
  cases hA : curPath.isPrefixOf x.1 <;>
  cases hB : decide (curPath.length < x.1.length) <;>
  cases hC : strEnds (fileName x.1) ".json" <;>
  cases hD : strStarts (fileName x.1) "._" <;>
  cases hE : fileName x.1 == ".DS_Store" <;>
  simp [hA, hB, hC, hD, hE]

/-- C4: when the `current` snapshot subtree exists, `copy_json_data`
copies exactly the files under it whose name ends in `.json` and whose
name neither starts with the resource-fork `._` nor equals `.DS_Store`
(the `specSelected` files, copied in traversal order with last writer
winning), and returns the number of files copied. -/
theorem copy_json_data_copies_selected (t : FileTree) (assets : List (String × Nat))
    (h : currentExists t = true) :
    copy_json_data t assets =
      .ok ((specSelected t).foldl (fun acc f => assetPut acc (fileName f.1) f.2) assets,
        (specSelected t).length) := by
  unfold copy_json_data
  rw [if_pos h, copyLoop_spec, filter_keep_rglob, Nat.zero_add]

/-- C4 witness: the claim's example subtree with `a.json`, `b.json`,
`._b.json` and `.DS_Store`; exactly `a.json` and `b.json` are copied and
the count is 2. -/
theorem copy_json_data_copies_selected_witness :
    currentExists ⟨[(["char_table", "current", "a.json"], 1),
      (["char_table", "current", "b.json"], 2),
      (["char_table", "current", "._b.json"], 3),
      (["char_table", "current", ".DS_Store"], 4)], [["char_table", "current"]], []⟩ = true ∧
    copy_json_data ⟨[(["char_table", "current", "a.json"], 1),
      (["char_table", "current", "b.json"], 2),
      (["char_table", "current", "._b.json"], 3),
      (["char_table", "current", ".DS_Store"], 4)], [["char_table", "current"]], []⟩ [] =
      .ok ((specSelected ⟨[(["char_table", "current", "a.json"], 1),
        (["char_table", "current", "b.json"], 2),
        (["char_table", "current", "._b.json"], 3),
        (["char_table", "current", ".DS_Store"], 4)], [["char_table", "current"]], []⟩).foldl
          (fun acc f => assetPut acc (fileName f.1) f.2) [],
        (specSelected ⟨[(["char_table", "current", "a.json"], 1),
          (["char_table", "current", "b.json"], 2),
          (["char_table", "current", "._b.json"], 3),
          (["char_table", "current", ".DS_Store"], 4)], [["char_table", "current"]], []⟩).length) ∧
    copy_json_data ⟨[(["char_table", "current", "a.json"], 1),
      (["char_table", "current", "b.json"], 2),
      (["char_table", "current", "._b.json"], 3),
      (["char_table", "current", ".DS_Store"], 4)], [["char_table", "current"]], []⟩ [] =
      .ok ([("a.json", 1), ("b.json", 2)], 2) :=
  ⟨by decide, copy_json_data_copies_selected _ _ (by decide), by decide⟩

theorem updateLoop_no_marker (blk : List String) :
    ∀ (ls acc : List String) (rep : Bool),
      (∀ l ∈ ls, containsMarker l = false) →
      updateLoop blk ls acc rep = (acc ++ ls, rep)
  | [], acc, rep, _ => by simp [updateLoop]
  | l :: ls, acc, rep, h => by
    rw [updateLoop]
    have hl : containsMarker l = false := h l (List.mem_cons_self _ _)
    rw [if_neg (by simp [hl]), updateLoop_no_marker blk ls _ rep
      (fun x hx => h x (List.mem_cons_of_mem _ hx))]
    simp

theorem updateLoop_append (blk : List String) :
    ∀ (xs ys acc : List String) (rep : Bool),
      updateLoop blk (xs ++ ys) acc rep =
        updateLoop blk ys (updateLoop blk xs acc rep).1 (updateLoop blk xs acc rep).2
  | [], ys, acc, rep => by simp [updateLoop]
  | x :: xs, ys, acc, rep => by
    rw [List.cons_append, updateLoop, updateLoop]
    by_cases hx : containsMarker x = true
    · rw [if_pos hx, if_pos hx, updateLoop_append blk xs]
    · rw [if_neg hx, if_neg hx, updateLoop_append blk xs]

/-- With exactly one marker line, the rewritten file is: the lines before
the marker minus the last two of them, then the generated block, then the
lines after the marker. -/
theorem updateLines_unique_marker (today version : String)
    (pre post : List String) (mk : String)
    (hm : containsMarker mk = true)
    (hpre : ∀ l ∈ pre, containsMarker l = false)
    (hpost : ∀ l ∈ post, containsMarker l = false) :
    update_consts_rs today version (pre ++ mk :: post) =
      pre.take (pre.length - 2) ++ autoBlock today version ++ post := by
  unfold update_consts_rs
  dsimp only
  rw [updateLoop_append, updateLoop_no_marker _ pre [] false hpre]
  simp only [List.nil_append]
  rw [updateLoop, if_pos hm, updateLoop_no_marker _ post _ true hpost]
  simp [List.append_assoc]

/-- C3: with a unique marker line preceded by at least two lines,
`update_consts_rs` replaces the marker line together with the two lines
immediately before it by the three-line block: the banner comment, the
auto-updated date comment, and a declaration line whose parenthesized
value is the version's dot-separated components joined verbatim by
comma-and-space — for an arbitrary version string, i.e. without any
numeric validation of the components. -/
theorem update_consts_rs_replaces (today version : String)
    (pre post : List String) (mk : String)
    (hm : containsMarker mk = true)
    (hpre : ∀ l ∈ pre, containsMarker l = false)
    (hpost : ∀ l ∈ post, containsMarker l = false)
    (hlen : 2 ≤ pre.length) :
    update_consts_rs today version (pre ++ mk :: post) =
      pre.take (pre.length - 2) ++ autoBlock today version ++ post ∧
    autoBlock today version =
      ["/// Unicode Version used by this build (auto-synced).",
       "/// auto-updated: " ++ today,
       "pub const UNICODE_VERSION: (u8, u8, u8) = (" ++
         String.mk (joinComma (splitDotAux [] version.data)) ++ ");"] :=
  ⟨updateLines_unique_marker today version pre post mk hm hpre hpost, rfl⟩

/-- C3 witness: a file whose marker line has two documentation lines above
it, patched with the non-numeric version string "15.x" — the components
are substituted verbatim. -/
theorem update_consts_rs_replaces_witness :
    containsMarker "pub const UNICODE_VERSION: (u8, u8, u8) = (14, 0, 0);" = true ∧
    update_consts_rs "2026-10-12" "15.x"
      (["// head", "/// doc1", "/// doc2"] ++
        "pub const UNICODE_VERSION: (u8, u8, u8) = (14, 0, 0);" :: ["fn main() {}"]) =
      (["// head", "/// doc1", "/// doc2"].take 1 ++
        autoBlock "2026-10-12" "15.x" ++ ["fn main() {}"]) ∧
    autoBlock "2026-10-12" "15.x" =
      ["/// Unicode Version used by this build (auto-synced).",
       "/// auto-updated: " ++ "2026-10-12",
       "pub const UNICODE_VERSION: (u8, u8, u8) = (" ++
         String.mk (joinComma (splitDotAux [] "15.x".data)) ++ ");"] ∧
    autoBlock "2026-10-12" "15.x" =
      ["/// Unicode Version used by this build (auto-synced).",
       "/// auto-updated: 2026-10-12",
       "pub const UNICODE_VERSION: (u8, u8, u8) = (15, x);"] := by
  have h := update_consts_rs_replaces "2026-10-12" "15.x"
    ["// head", "/// doc1", "/// doc2"] ["fn main() {}"]
    "pub const UNICODE_VERSION: (u8, u8, u8) = (14, 0, 0);"
    (by decide) (by decide) (by decide) (by decide)
  exact ⟨by decide, h.1, h.2, by decide⟩

/-- C7: when no line of the input file contains the marker token,
`update_consts_rs` does not edit in place and does not fail: it appends
(after one empty line) the same three-line block at the end of the
file. -/
theorem update_consts_rs_appends (today version : String) (lines : List String)
    (h : ∀ l ∈ lines, containsMarker l = false) :
    update_consts_rs today version lines =
      lines ++ [""] ++ autoBlock today version := by
  unfold update_consts_rs
  dsimp only
  rw [updateLoop_no_marker _ lines [] false h]
  simp

/-- C7 witness: a marker-free file gets the block appended at its end. -/
theorem update_consts_rs_appends_witness :
    (∀ l ∈ ["// lib", "fn main() {}"], containsMarker l = false) ∧
    update_consts_rs "2026-10-12" "15.1.0" ["// lib", "fn main() {}"] =
      ["// lib", "fn main() {}"] ++ [""] ++ autoBlock "2026-10-12" "15.1.0" :=
  ⟨by decide, update_consts_rs_appends "2026-10-12" "15.1.0" _ (by decide)⟩

/-- C10: when the unique marker line is the first or second line of the
file (at most one line precedes it), `update_consts_rs` still succeeds:
it removes only the zero or one preceding lines and puts the three-line
block in their place. -/
theorem update_consts_rs_marker_near_top (today version : String)
    (pre post : List String) (mk : String)
    (hm : containsMarker mk = true)
    (hpre : ∀ l ∈ pre, containsMarker l = false)
    (hpost : ∀ l ∈ post, containsMarker l = false)
    (hlen : pre.length ≤ 1) :
    update_consts_rs today version (pre ++ mk :: post) =
      autoBlock today version ++ post := by
  rw [updateLines_unique_marker today version pre post mk hm hpre hpost]
  have h0 : pre.length - 2 = 0 := by omega
  rw [h0, List.take_zero, List.nil_append]

/-- C10 witness: the marker as the first line and as the second line. -/
theorem update_consts_rs_marker_near_top_witness :
    update_consts_rs "D" "1.2.3"
      ([] ++ "pub const UNICODE_VERSION: (u8, u8, u8) = (9, 9, 9);" :: ["z"]) =
      autoBlock "D" "1.2.3" ++ ["z"] ∧
    update_consts_rs "D" "1.2.3"
      (["only"] ++ "pub const UNICODE_VERSION: (u8, u8, u8) = (9, 9, 9);" :: ["z"]) =
      autoBlock "D" "1.2.3" ++ ["z"] :=
  ⟨update_consts_rs_marker_near_top "D" "1.2.3" [] ["z"] _
      (by decide) (by decide) (by decide) (by decide),
   update_consts_rs_marker_near_top "D" "1.2.3" ["only"] ["z"] _
      (by decide) (by decide) (by decide) (by decide)⟩

theorem runStep_download_success (v t : String) (w w2 : World)
    (h : runStep v t .download w = (none, w2)) : w2.archiveFile.isSome = true := by
  unfold runStep at h
  dsimp only at h
  cases hd : download_archive w.dlStatus w.dlBody with
  | error e => rw [hd] at h; exact absurd h (by simp)
  | ok b =>
    rw [hd] at h
    simp only [Prod.mk.injEq] at h
    rw [← h.2]
    rfl

theorem runStep_extract_fields (v t : String) (w : World) (o : Option Err) (w3 : World)
    (h : runStep v t .extract w = (o, w3)) :
    w3.scratch.isSome = true ∧ w3.archiveFile = w.archiveFile := by
  unfold runStep at h
  dsimp only at h
  simp only [Prod.mk.injEq] at h
  rw [← h.2]
  exact ⟨rfl, rfl⟩

theorem runStep_copy_fields (v t : String) (w : World) (o : Option Err) (w4 : World)
    (h : runStep v t .copy w = (o, w4)) :
    w4.scratch = w.scratch ∧ w4.archiveFile = w.archiveFile := by
  unfold runStep at h
  dsimp only at h
  cases hc : copy_json_data (w.scratch.getD emptyTree) w.assets with
  | error e =>
    rw [hc] at h
    simp only [Prod.mk.injEq] at h
    rw [← h.2]
    exact ⟨rfl, rfl⟩
  | ok p =>
    rw [hc] at h
    simp only [Prod.mk.injEq] at h
    rw [← h.2]
    exact ⟨rfl, rfl⟩

/-- C5: if any pipeline step raises, `run` aborts immediately: the
executed steps are exactly the pipeline's first steps up to and including
the failing one, `clean_up` is never invoked, and if the failure occurs
at or after extraction, both the downloaded archive file and the scratch
directory are still on disk in the final state. -/
theorem run_aborts_without_cleanup (v t : String) (w : World) (e : Err)
    (w' : World) (tr : List Step) (h : run v t w = (some e, w', tr)) :
    Step.cleanup ∉ tr ∧
    (∃ k, k < pipelineSteps.length ∧ tr = pipelineSteps.take (k + 1)) ∧
    (Step.extract ∈ tr →
      w'.archiveFile.isSome = true ∧ w'.scratch.isSome = true) := by
  unfold run pipelineSteps at h
  rw [runFrom] at h
  rcases h1 : runStep v t Step.fetch w with ⟨o1, w1⟩
  rw [h1] at h
  cases o1 with
  | some e1 =>
    dsimp only at h
    simp only [Prod.mk.injEq] at h
    obtain ⟨-, -, htr⟩ := h
    rw [← htr]
    refine ⟨by decide, ⟨0, by decide, rfl⟩, fun hmem => absurd hmem (by decide)⟩
  | none =>
    dsimp only at h
    rw [runFrom] at h
    rcases h2 : runStep v t Step.download w1 with ⟨o2, w2⟩
    rw [h2] at h
    cases o2 with
    | some e2 =>
      dsimp only at h
      simp only [Prod.mk.injEq] at h
      obtain ⟨-, -, htr⟩ := h
      rw [← htr]
      refine ⟨by decide, ⟨1, by decide, rfl⟩, fun hmem => absurd hmem (by decide)⟩
    | none =>
      dsimp only at h
      rw [runFrom] at h
      rcases h3 : runStep v t Step.extract w2 with ⟨o3, w3⟩
      rw [h3] at h
      cases o3 with
      | some e3 =>
        dsimp only at h
        simp only [Prod.mk.injEq] at h
        obtain ⟨-, hw, htr⟩ := h
        rw [← htr]
        refine ⟨by decide, ⟨2, by decide, rfl⟩, fun _ => ?_⟩
        obtain ⟨hs3, ha3⟩ := runStep_extract_fields v t w2 _ _ h3
        rw [← hw]
        exact ⟨by rw [ha3]; exact runStep_download_success v t w1 w2 h2, hs3⟩
      | none =>
        dsimp only at h
        rw [runFrom] at h
        rcases h4 : runStep v t Step.copy w3 with ⟨o4, w4⟩
        rw [h4] at h
        cases o4 with
        | some e4 =>
          dsimp only at h
          simp only [Prod.mk.injEq] at h
          obtain ⟨-, hw, htr⟩ := h
          rw [← htr]
          refine ⟨by decide, ⟨3, by decide, rfl⟩, fun _ => ?_⟩
          obtain ⟨hs4, ha4⟩ := runStep_copy_fields v t w3 _ _ h4
          obtain ⟨hs3, ha3⟩ := runStep_extract_fields v t w2 _ _ h3
          rw [← hw]
          constructor
          · rw [ha4, ha3]
            exact runStep_download_success v t w1 w2 h2
          · rw [hs4]
            exact hs3
        | none =>
          dsimp only at h
          rw [runFrom] at h
          rcases h5 : runStep v t Step.update w4 with ⟨o5, w5⟩
          have ho5 : o5 = none := by
            have h' := congrArg Prod.fst h5
            dsimp only at h'
            rw [← h']
            rfl
          rw [h5, ho5] at h
          dsimp only at h
          rw [runFrom] at h
          rcases h6 : runStep v t Step.cleanup w5 with ⟨o6, w6⟩
          have ho6 : o6 = none := by
            have h' := congrArg Prod.fst h6
            dsimp only at h'
            rw [← h']
            rfl
          rw [h6, ho6] at h
          dsimp only at h
          rw [runFrom] at h
          dsimp only at h
          simp only [Prod.mk.injEq] at h
          exact absurd h.1 (by simp)

/-- C5 witness: a world whose listing request fails (status 404); only the
fetch step runs and cleanup is skipped. -/
theorem run_aborts_without_cleanup_witness :
    Step.cleanup ∉ [Step.fetch] ∧
    (∃ k, k < pipelineSteps.length ∧ [Step.fetch] = pipelineSteps.take (k + 1)) ∧
    (Step.extract ∈ [Step.fetch] →
      (⟨404, "", 200, .corrupt, "", none, none, [], []⟩ : World).archiveFile.isSome = true ∧
      (⟨404, "", 200, .corrupt, "", none, none, [], []⟩ : World).scratch.isSome = true) :=
  run_aborts_without_cleanup "15.1.0" "2026-10-12"
    ⟨404, "", 200, .corrupt, "", none, none, [], []⟩ .fetchError
    ⟨404, "", 200, .corrupt, "", none, none, [], []⟩ [Step.fetch] (by decide)

theorem loopT_map_snd (blk : List String) : ∀ (ls : List String) (i : Nat)
    (accT : List (Option Nat × String)) (rep : Bool),
    (updateLoop blk ls (accT.map Prod.snd) rep).1 = (loopT blk i ls accT).map Prod.snd
  | [], _, accT, rep => by simp [updateLoop, loopT]
  | l :: ls, i, accT, rep => by
    rw [updateLoop, loopT]
    by_cases hl : containsMarker l = true
    · rw [if_pos hl]
      have hstep : (accT.map Prod.snd).take ((accT.map Prod.snd).length - 2) ++ blk =
          (stepT blk i l accT).map Prod.snd := by
        unfold stepT
        rw [if_pos hl]
        rw [List.map_append, List.map_take, List.length_map]
        congr 1
        unfold blkT
        rw [List.map_map]
        simp
      rw [hstep]
      exact loopT_map_snd blk ls (i + 1) (stepT blk i l accT) true
    · rw [if_neg hl]
      have hstep : accT.map Prod.snd ++ [l] = (stepT blk i l accT).map Prod.snd := by
        unfold stepT
        rw [if_neg hl]
        simp
      rw [hstep]
      exact loopT_map_snd blk ls (i + 1) (stepT blk i l accT) rep

theorem goodUpto_succ (lines : List String) (k : Nat) :
    goodUpto lines (k + 1) = goodUpto lines k ++
      (if decide (k < lines.length) && !inWin lines k then
        [((some k : Option Nat), lines.getD k "")] else []) := by
  unfold goodUpto
  rw [List.range_succ, List.filter_append, List.map_append]
  congr 1
  by_cases hk : (decide (k < lines.length) && !inWin lines k) = true
  · rw [if_pos hk]
    simp [List.filter_cons, hk]
  · rw [if_neg hk]
    simp only [Bool.not_eq_true] at hk
    simp [List.filter_cons, hk]

theorem sublist_of_append_not_mem {α : Type} (l a b : List α)
    (h : l.Sublist (a ++ b)) (hb : ∀ x ∈ b, x ∉ l) : l.Sublist a := by
  obtain ⟨l₁, l₂, rfl, h1, h2⟩ := List.sublist_append_iff.mp h
  have h0 : l₂ = [] := by
    cases l₂ with
    | nil => rfl
    | cons x xs =>
      exact absurd (List.mem_append_right l₁ (List.mem_cons_self x xs))
        (hb x (h2.subset (List.mem_cons_self x xs)))
  subst h0
  simpa using h1

/-- Main invariant of the replacement loop: every non-window source line
already accumulated stays (in order), the last accumulated element comes
from source index `i - 1` or the block, and the second-to-last from index
`≥ i - 2` or the block; processing the remaining lines then keeps every
non-window source line of the file. -/
theorem loopT_inv (blk : List String) (hb : 2 ≤ blk.length) (lines : List String) :
    ∀ (ls : List String) (i : Nat) (acc : List (Option Nat × String)),
      lines.drop i = ls → i ≤ lines.length →
      (∀ j l, (some j, l) ∈ acc.drop (acc.length - 1) → j + 1 = i) →
      (∀ j l, (some j, l) ∈ acc.drop (acc.length - 2) → i ≤ j + 2) →
      (goodUpto lines i).Sublist acc →
      (goodUpto lines lines.length).Sublist (loopT blk i ls acc)
  | [], i, acc, hdrop, hle, _, _, hsub => by
    have hlen := congrArg List.length hdrop
    rw [List.length_drop] at hlen
    simp only [List.length_nil] at hlen
    have hi : i = lines.length := by omega
    rw [loopT, ← hi]
    exact hsub
  | l :: ls, i, acc, hdrop, hle, hlast, hlast2, hsub => by
    have hlen := congrArg List.length hdrop
    rw [List.length_drop] at hlen
    simp only [List.length_cons] at hlen
    have hi : i < lines.length := by omega
    have hgetD : lines.getD i "" = l := by
      conv_lhs => rw [← List.take_append_drop i lines]
      rw [List.getD_append_right _ _ _ _ (by rw [List.length_take]; omega)]
      rw [List.length_take, hdrop]
      have : i - i ⊓ lines.length = 0 := by omega
      rw [this]
      rfl
    have hdrop' : lines.drop (i + 1) = ls := by
      have := List.drop_drop 1 i lines
      rw [hdrop] at this
      rw [← this]
      rfl
    rw [loopT]
    unfold stepT
    by_cases hl : containsMarker l = true
    · rw [if_pos hl]
      have hwin : ∀ j, j ≤ i → i ≤ j + 2 → inWin lines j = true := by
        intro j hj1 hj2
        unfold inWin
        rw [List.any_eq_true]
        refine ⟨i, List.mem_range.mpr hi, ?_⟩
        rw [hgetD, hl]
        simp [hj1, hj2]
      have hblkT : (blkT blk).length = blk.length := by
        unfold blkT
        rw [List.length_map]
      refine loopT_inv blk hb lines ls (i + 1) _ hdrop' (by omega) ?_ ?_ ?_
      · -- new last element comes from the block
        intro j l' hj
        exfalso
        have h1 : (acc.take (acc.length - 2) ++ blkT blk).length - 1 =
            (acc.take (acc.length - 2)).length + ((blkT blk).length - 1) := by
          rw [List.length_append]
          omega
        rw [h1, List.drop_append] at hj
        have hjB : ((some j : Option Nat), l') ∈ blkT blk :=
          (List.drop_sublist _ _).subset hj
        unfold blkT at hjB
        obtain ⟨s, -, hs⟩ := List.mem_map.mp hjB
        exact absurd (congrArg Prod.fst hs) (by simp)
      · -- new second-to-last element comes from the block
        intro j l' hj
        exfalso
        have h1 : (acc.take (acc.length - 2) ++ blkT blk).length - 2 =
            (acc.take (acc.length - 2)).length + ((blkT blk).length - 2) := by
          rw [List.length_append]
          omega
        rw [h1, List.drop_append] at hj
        have hjB : ((some j : Option Nat), l') ∈ blkT blk :=
          (List.drop_sublist _ _).subset hj
        unfold blkT at hjB
        obtain ⟨s, -, hs⟩ := List.mem_map.mp hjB
        exact absurd (congrArg Prod.fst hs) (by simp)
      · -- the good lines survive the splice
        have hgood_succ : goodUpto lines (i + 1) = goodUpto lines i := by
          rw [goodUpto_succ, hwin i le_rfl (by omega)]
          simp
        rw [hgood_succ]
        have hnotmem : ∀ x ∈ acc.drop (acc.length - 2), x ∉ goodUpto lines i := by
          rintro ⟨jo, l₂⟩ hx hmem
          unfold goodUpto at hmem
          obtain ⟨j, hjf, hjeq⟩ := List.mem_map.mp hmem
          obtain ⟨hjr, hjp⟩ := List.mem_filter.mp hjf
          obtain ⟨-, hnw⟩ := Bool.and_eq_true_iff.mp hjp
          rw [← hjeq] at hx
          have hj2 : i ≤ j + 2 := hlast2 j _ hx
          have := hwin j (Nat.le_of_lt (List.mem_range.mp hjr)) hj2
          rw [this] at hnw
          simp at hnw
        have hsplit : (goodUpto lines i).Sublist
            (acc.take (acc.length - 2) ++ acc.drop (acc.length - 2)) := by
          rw [List.take_append_drop]
          exact hsub
        exact (sublist_of_append_not_mem _ _ _ hsplit hnotmem).trans
          (List.sublist_append_left _ _)
    · rw [if_neg hl]
      refine loopT_inv blk hb lines ls (i + 1) _ hdrop' (by omega) ?_ ?_ ?_
      · -- new last element is the just-appended line i
        intro j l' hj
        have h1 : (acc ++ [((some i : Option Nat), l)]).length - 1 = acc.length := by
          rw [List.length_append]
          simp
        rw [h1, List.drop_left] at hj
        have := List.mem_singleton.mp hj
        have hji : j = i := by
          have := congrArg Prod.fst this
          simpa using this
        omega
      · -- new second-to-last element: old last or the appended line
        intro j l' hj
        have h1 : (acc ++ [((some i : Option Nat), l)]).length - 2 = acc.length - 1 := by
          rw [List.length_append]
          simp
        rw [h1, List.drop_append_of_le_length (by omega)] at hj
        rcases List.mem_append.mp hj with hold | hnew
        · have := hlast j l' hold
          omega
        · have := List.mem_singleton.mp hnew
          have hji : j = i := by
            have := congrArg Prod.fst this
            simpa using this
          omega
      · -- the good lines extend by line i when it is outside every window
        rw [goodUpto_succ]
        by_cases hc : (decide (i < lines.length) && !inWin lines i) = true
        · rw [if_pos hc, hgetD]
          exact hsub.append (List.Sublist.refl _)
        · rw [if_neg hc, List.append_nil]
          exact hsub.trans (List.sublist_append_left _ _)

/-- C9: `update_consts_rs` preserves every line that is not part of a
replaced window (a marker line together with the up-to-two lines
immediately before it) unchanged and in its original relative order: the
non-window lines form a sublist of the rewritten file. -/
theorem update_consts_rs_frame (today version : String) (lines : List String) :
    (((List.range lines.length).filter (fun j => !inWin lines j)).map
      (fun j => lines.getD j "")).Sublist (update_consts_rs today version lines) := by
  have hb : 2 ≤ (autoBlock today version).length := by simp [autoBlock]
  have hmain := loopT_inv (autoBlock today version) hb lines lines 0 []
    (by rw [List.drop_zero]) (Nat.zero_le _)
    (by intro j l h; simp at h) (by intro j l h; simp at h)
    (by simp [goodUpto])
  have hl : (updateLoop (autoBlock today version) lines [] false).1 =
      (loopT (autoBlock today version) 0 lines []).map Prod.snd := by
    simpa using loopT_map_snd (autoBlock today version) lines 0 [] false
  have hgm : (goodUpto lines lines.length).map Prod.snd =
      ((List.range lines.length).filter (fun j => !inWin lines j)).map
        (fun j => lines.getD j "") := by
    unfold goodUpto
    rw [List.map_map]
    have hcomp : (Prod.snd ∘ fun j => ((some j : Option Nat), lines.getD j "")) =
        fun j => lines.getD j "" := rfl
    rw [hcomp]
    congr 1
    apply List.filter_congr
    intro j hj
    simp [List.mem_range.mp hj]
  unfold update_consts_rs
  dsimp only
  by_cases hrep : (updateLoop (autoBlock today version) lines [] false).2 = true
  · rw [if_pos hrep, hl, ← hgm]
    exact List.Sublist.map Prod.snd hmain
  · rw [if_neg hrep, hl, ← hgm]
    refine (List.Sublist.map Prod.snd hmain).trans ?_
    rw [List.append_assoc]
    exact List.sublist_append_left _ _
